import Mathlib

/-!
Verification development for the KvServerLoadTest repository: a shallow
embedding of the sharded LRU cache, the connection pool, the KV store
adapter, the HTTP request handlers and the load-generator client, together
with theorems settling the specification claims against the code.
-/

namespace KvLoadTest

/-! ## Sharded LRU cache (`src/server/caches/ShardedCache.hpp`)

A `Shard` in the C++ source holds `lru_list_ : std::list<Key>` (front = MRU,
back = LRU) and `cache_map_ : unordered_map<Key, (Value, iterator)>` where the
iterator points at that key's node in `lru_list_`.  The two structures are kept
in lockstep: every map entry owns exactly one list node and vice versa.  We
embed the pair as a single recency-ordered association list `entries`
(front = MRU): `lru_list_` is `entries.map Prod.fst` and a `cache_map_` probe is
an association lookup.  `max_shard_size_` is `cap`. -/

structure Shard where
  entries : List (Int × String)
  cap : Nat
  deriving Repr, DecidableEq

/-- Association lookup: the `cache_map_.find(key)` probe. -/
def lookupKey (k : Int) : List (Int × String) → Option String
  | [] => none
  | p :: rest => if p.1 = k then some p.2 else lookupKey k rest

/-- Remove the (unique) entry for `k`: erasing the map entry together with its
list node. -/
def eraseKey (k : Int) : List (Int × String) → List (Int × String)
  | [] => []
  | p :: rest => if p.1 = k then rest else p :: eraseKey k rest

/-- `FineLRUCache::Put` on one shard (the body under the shard lock).
On overwrite: store the new value and splice the node to the front.
On insert: if the shard is full, evict the back (LRU) entry, then push the new
entry to the front. -/
def shardPut (k : Int) (v : String) (s : Shard) : Shard :=
  match lookupKey k s.entries with
  | some _ => { s with entries := (k, v) :: eraseKey k s.entries }
  | none =>
      let remaining := if s.entries.length ≥ s.cap then s.entries.dropLast else s.entries
      { s with entries := (k, v) :: remaining }

/-- `FineLRUCache::Get` on one shard: on a miss return `none` leaving the shard
untouched; on a hit splice the node to the front and return the value. -/
def shardGet (k : Int) (s : Shard) : Option String × Shard :=
  match lookupKey k s.entries with
  | none => (none, s)
  | some v => (some v, { s with entries := (k, v) :: eraseKey k s.entries })

/-- `FineLRUCache::Remove` on one shard: erase the entry if present and report
whether a removal occurred. -/
def shardRemove (k : Int) (s : Shard) : Bool × Shard :=
  match lookupKey k s.entries with
  | none => (false, s)
  | some _ => (true, { s with entries := eraseKey k s.entries })

/-- The sharded cache: `shards_` (each `unique_ptr<Shard>` dereferenced);
`num_shards_` is `shards.length` after construction. -/
structure FineLRUCache where
  shards : List Shard
  deriving Repr, DecidableEq

/-- `std::hash<int>` in libstdc++ is the identity cast to `size_t`; for an
`Int` key this is conversion to an unsigned 64-bit value. -/
def hashInt (k : Int) : Nat := (k.emod (2 ^ 64)).toNat

/-- `getShardForKey`: `hash(key) % num_shards_`. -/
def shardIndex (c : FineLRUCache) (k : Int) : Nat :=
  hashInt k % c.shards.length

/-- `FineLRUCache::Put`: dispatch to the owning shard. -/
def cachePut (k : Int) (v : String) (c : FineLRUCache) : FineLRUCache :=
  let i := shardIndex c k
  { shards := c.shards.set i (shardPut k v (c.shards.getD i ⟨[], 0⟩)) }

/-- `FineLRUCache::Get`: dispatch to the owning shard. -/
def cacheGet (k : Int) (c : FineLRUCache) : Option String × FineLRUCache :=
  let i := shardIndex c k
  let r := shardGet k (c.shards.getD i ⟨[], 0⟩)
  (r.1, { shards := c.shards.set i r.2 })

/-- `FineLRUCache::Remove`: dispatch to the owning shard. -/
def cacheRemove (k : Int) (c : FineLRUCache) : Bool × FineLRUCache :=
  let i := shardIndex c k
  let r := shardRemove k (c.shards.getD i ⟨[], 0⟩)
  (r.1, { shards := c.shards.set i r.2 })

/-- `FineLRUCache::Size`: sum of the per-shard map sizes. -/
def cacheSize (c : FineLRUCache) : Nat :=
  (c.shards.map (fun s => s.entries.length)).sum

/-- The value currently associated with `k` in the cache, without the recency
side effect (what a reader of the cache state sees for `k`). -/
def cacheLookup (k : Int) (c : FineLRUCache) : Option String :=
  lookupKey k (c.shards.getD (shardIndex c k) ⟨[], 0⟩).entries

/-- The two failure shapes of the constructor: `std::invalid_argument` and
`std::runtime_error` ("Internal"). -/
inductive CacheError
  | invalidArgument (msg : String)
  | internal (msg : String)
  deriving Repr, DecidableEq

/-- The per-shard capacities computed by the `FineLRUCache` constructor loop:
`base_size + 1` for the first `remainder` shards, with a zero allotment bumped
to `1` (`if (shard_size == 0 && max_size > 0) shard_size = 1;`), and a shard
kept only when its final size is positive. -/
def shardSizes (max_size shard_count : Nat) : List Nat :=
  let base_size := max_size / shard_count
  let remainder := max_size % shard_count
  (List.range shard_count).filterMap (fun i =>
    let s0 := base_size + (if i < remainder then 1 else 0)
    let s1 := if s0 = 0 ∧ max_size > 0 then 1 else s0
    if s1 > 0 then some s1 else none)

/-- The `FineLRUCache` constructor. -/
def mkFineLRUCache (max_size shard_count : Nat) : Except CacheError FineLRUCache :=
  if max_size = 0 then
    .error (.invalidArgument "Cache max size must be greater than 0")
  else if shard_count = 0 then
    .error (.invalidArgument "Shard count must be greater than 0")
  else
    let sizes := shardSizes max_size shard_count
    if sizes.length = 0 then .error (.internal "Cache could not be initialized")
    else .ok { shards := sizes.map (fun sz => { entries := [], cap := sz }) }

/-! ## KV store adapter (`src/server/kv_database.cpp`)

`KvDatabase::getValueForKey` runs the select inside a `try`; a found row is
returned, and both "no row" and "exception during select" fall through to
`return std::nullopt` (the catch only logs to `stderr`).  We embed the select
outcome explicitly: the database either yields a row set (at most one row, the
key being primary) or raises. -/

/-- Outcome of the underlying select: a row (or none), or a raised error. -/
inductive DbOutcome
  | rows (row : Option String)
  | raised (msg : String)
  deriving Repr, DecidableEq

/-- `KvDatabase::getValueForKey`: return the row if the select produced one;
on an empty row set or on an exception (logged, swallowed), return `none`. -/
def getValueForKey (outcome : DbOutcome) : Option String :=
  match outcome with
  | .rows (some v) => some v
  | .rows none => none
  | .raised _ => none

/-! ## Request handlers (`src/server/kv_server.cpp`, `src/server/kv_server_cw.cpp`)

The handler-visible system state: the shared cache, the backing store contents
(the adapter's `putKeyValue` is an upsert, `deleteKeyValue` a point delete,
`getValueForKey` a point select), and the two hit counters. -/

structure SysState where
  cache : FineLRUCache
  store : Int → Option String
  totalGets : Nat
  cacheHits : Nat

/-- An HTTP response: status code and plain-text body. -/
structure Response where
  status : Nat
  body : String
  deriving Repr, DecidableEq

/-- `KvDatabase::putKeyValue`: `INSERT ... ON CONFLICT (key) DO UPDATE`. -/
def storeUpsert (k : Int) (v : String) (store : Int → Option String) :
    Int → Option String :=
  fun q => if q = k then some v else store q

/-- `KvDatabase::deleteKeyValue`: point delete, a no-op on a missing key. -/
def storeDelete (k : Int) (store : Int → Option String) : Int → Option String :=
  fun q => if q = k then none else store q

/-- The GET handler body shared by `KvServer::GetKv` and `KvServerCw::GetKv`
(identical logic): bump `totalGets`, probe the cache; on a hit bump `cacheHits`
and answer 200 with the cached value; on a miss consult the store via the
adapter — if present answer 200 and `Put` the value into the cache, else answer
404. -/
def handlerGetKv (k : Int) (st : SysState) : Response × SysState :=
  let st1 := { st with totalGets := st.totalGets + 1 }
  match cacheGet k st1.cache with
  | (some v, cache2) =>
      (⟨200, v⟩, { st1 with cache := cache2, cacheHits := st1.cacheHits + 1 })
  | (none, cache2) =>
      match st1.store k with
      | some v => (⟨200, v⟩, { st1 with cache := cachePut k v cache2 })
      | none => (⟨404, "Key not found"⟩, { st1 with cache := cache2 })

/-- `KvServer::PutKv` (the httplib server): acquire a connection, upsert, and
answer 200 "Updated".  The function performs no cache operation. -/
def kvServerPutKv (k : Int) (v : String) (st : SysState) : Response × SysState :=
  (⟨200, "Updated"⟩, { st with store := storeUpsert k v st.store })

/-- `KvServer::DeleteKv` (the httplib server): acquire a connection, delete,
and answer 200 "Deleted".  The function performs no cache operation. -/
def kvServerDeleteKv (k : Int) (st : SysState) : Response × SysState :=
  (⟨200, "Deleted"⟩, { st with store := storeDelete k st.store })

/-- `KvServerCw::PutKv`: upsert, then `cache.Remove(key)`, then answer 200
"Updated". -/
def kvServerCwPutKv (k : Int) (v : String) (st : SysState) : Response × SysState :=
  let st1 := { st with store := storeUpsert k v st.store }
  let st2 := { st1 with cache := (cacheRemove k st1.cache).2 }
  (⟨200, "Updated"⟩, st2)

/-- `KvServerCw::DeleteKv`: delete, then `cache.Remove(key)`, then answer 200
"Deleted". -/
def kvServerCwDeleteKv (k : Int) (st : SysState) : Response × SysState :=
  let st1 := { st with store := storeDelete k st.store }
  let st2 := { st1 with cache := (cacheRemove k st1.cache).2 }
  (⟨200, "Deleted"⟩, st2)

/-! ## Routing (`dispatch_handler` in `src/server/kv_server_cw.cpp`)

`dispatch_handler` serves `GET /` directly, matches the URI against the regex
`^/(\d+)$` to dispatch Get/Put/Delete on the parsed key, and answers
`404 Not Found` for everything else. -/

/-- HTTP request method, as compared by `strcmp` in `dispatch_handler`. -/
inductive Method
  | GET | PUT | DELETE
  deriving Repr, DecidableEq

/-- The capture group of `^/(\d+)$`: the URI must be a slash followed by one
or more digits. -/
def keyPathSegment (uri : String) : Option (List Char) :=
  match uri.data with
  | '/' :: rest =>
      if !rest.isEmpty && rest.all Char.isDigit then some rest else none
  | _ => none

/-- `std::stoi` on a plain digit string. -/
def digitsToNat (l : List Char) : Nat :=
  l.foldl (fun acc c => acc * 10 + (c.toNat - '0'.toNat)) 0

/-- `KvServerCw::HandleRoot`: the status summary served on `GET /`. -/
def handleRoot (st : SysState) : Response :=
  ⟨200, "totalGets:" ++ toString st.totalGets ++ "\n" ++
        "cacheHits:" ++ toString st.cacheHits ++ "\n"⟩

/-- `dispatch_handler`: route the request and run the matching handler;
requests matching no route are answered `404 Not Found`. -/
def dispatchHandler (method : Method) (uri : String) (body : String)
    (st : SysState) : Response × SysState :=
  if uri = "/" ∧ method = .GET then (handleRoot st, st)
  else
    match keyPathSegment uri with
    | some ds =>
        let k : Int := Int.ofNat (digitsToNat ds)
        match method with
        | .GET => handlerGetKv k st
        | .PUT => kvServerCwPutKv k body st
        | .DELETE => kvServerCwDeleteKv k st
    | none => (⟨404, "Not Found"⟩, st)

/-! ## Connection pool (`src/server/db_conn_pool.hpp`)

The pool state: `max_size_`, `total_connections_`, and the FIFO
`idle_connections_` queue of `unique_ptr`s (front = head of the list; a null
`unique_ptr` is `none`).  `acquire` blocks on the condition variable while the
queue is empty and the total is at capacity; blocking is modelled as the
`none` result.  The factory call happens outside the lock and either returns a
(possibly null) pointer or throws. -/

structure PoolState where
  max_size : Nat
  total_connections : Nat
  idle_connections : List (Option Unit)
  deriving Repr, DecidableEq

/-- What `factory_()` does on a given call: return a `unique_ptr` (possibly
null, as the server's factory does on connection failure) or throw. -/
inductive FactoryOutcome
  | ok (conn : Option Unit)
  | throws (msg : String)
  deriving Repr, DecidableEq

/-- The RAII `PooledConnection` wrapper: the held `connection_` pointer and
whether `pool_` is non-null (a moved-from wrapper has `pool_ = nullptr`). -/
structure PooledConnection where
  connection : Option Unit
  hasPool : Bool
  deriving Repr, DecidableEq

/-- `PooledConnection::is_valid`: `connection_ != nullptr`. -/
def PooledConnection.isValidConn (h : PooledConnection) : Bool :=
  h.connection.isSome

/-- `ConnectionPool::release` (called by the wrapper destructor): push the
connection onto the idle queue and wake one waiter. -/
def poolRelease (c : Option Unit) (s : PoolState) : PoolState :=
  { s with idle_connections := s.idle_connections ++ [c] }

/-- The `PooledConnection` destructor: `if (pool_ && connection_)`, release the
connection to the pool; a null connection (or a moved-from wrapper) releases
nothing. -/
def destroyHandle (h : PooledConnection) (s : PoolState) : PoolState :=
  if h.hasPool ∧ h.connection.isSome then poolRelease h.connection s else s

/-- Result of one `acquire` call: a wrapper, or a propagated factory
exception (recording that `notify_all` ran on that path). -/
inductive AcquireResult
  | conn (h : PooledConnection)
  | raised (msg : String) (notifiedAll : Bool)
  deriving Repr, DecidableEq

/-- `ConnectionPool::acquire`: wait until the idle queue is non-empty or
`total_connections_ < max_size_` (still blocked ⇒ `none`); pop an idle
connection if there is one; otherwise increment the count, call the factory
outside the lock, and on a throw re-take the lock, decrement the count,
`notify_all`, and rethrow. -/
def poolAcquire (s : PoolState) (outcome : FactoryOutcome) :
    Option (AcquireResult × PoolState) :=
  match s.idle_connections with
  | c :: rest => some (.conn ⟨c, true⟩, { s with idle_connections := rest })
  | [] =>
      if s.total_connections < s.max_size then
        let s1 := { s with total_connections := s.total_connections + 1 }
        match outcome with
        | .ok c => some (.conn ⟨c, true⟩, s1)
        | .throws msg =>
            some (.raised msg true,
                  { s1 with total_connections := s1.total_connections - 1 })
      else none

/-- One transition of the pool, paired with a ghost count `u` of wrappers
currently held by callers.  Acquire steps are exactly the successful runs of
`poolAcquire`; per the pool's documented factory contract (construct a
connection or raise) the acquired wrapper holds a connection — the server's
null-returning factory is analysed separately.  A release step is the
destruction of a held wrapper. -/
inductive PoolStep : PoolState × Nat → PoolState × Nat → Prop
  | acquireConn (s : PoolState) (u : Nat) (o : FactoryOutcome)
      (h : PooledConnection) (s2 : PoolState) :
      poolAcquire s o = some (.conn h, s2) →
      h.connection.isSome = true →
      PoolStep (s, u) (s2, u + 1)
  | acquireRaised (s : PoolState) (u : Nat) (o : FactoryOutcome)
      (msg : String) (b : Bool) (s2 : PoolState) :
      poolAcquire s o = some (.raised msg b, s2) →
      PoolStep (s, u) (s2, u)
  | releaseConn (s : PoolState) (u : Nat) (c : Option Unit) :
      0 < u →
      PoolStep (s, u) (poolRelease c s, u - 1)

/-- The freshly constructed pool: no connections yet. -/
def mkPool (max_size : Nat) : PoolState :=
  { max_size := max_size, total_connections := 0, idle_connections := [] }

/-! ## Load generator (`src/client/main.cpp`)

Each worker owns a `std::mt19937`.  The engine is external library code; we
embed it from its definition in the C++ standard (`mersenne_twister_engine`
with the `mt19937` parameters): state = the last 624 32-bit words, seeding by
the Knuth recurrence, and a per-call transition producing one tempered word. -/

/-- One step of the mt19937 seeding recurrence:
`x[i] = 1812433253 * (x[i-1] xor (x[i-1] >> 30)) + i (mod 2^32)`. -/
def mtSeedStep (prev : Nat) (i : Nat) : Nat :=
  (1812433253 * (prev ^^^ (prev >>> 30)) + i) % 2 ^ 32

/-- The words `x[start] … x[start+fuel-1]` of the seeding recurrence, given
`x[start-1] = prev`. -/
def mtSeedWords (prev : Nat) (start : Nat) : Nat → List Nat
  | 0 => []
  | fuel + 1 =>
      let x := mtSeedStep prev start
      x :: mtSeedWords x (start + 1) fuel

/-- The mt19937 engine state: the most recent 624 words. -/
structure MtState where
  words : List Nat
  deriving Repr, DecidableEq

/-- `mt19937(seed)`: `x[0] = seed mod 2^32`, then the seeding recurrence for
`x[1] … x[623]`. -/
def mtInit (seed : Nat) : MtState :=
  let x0 := seed % 2 ^ 32
  ⟨x0 :: mtSeedWords x0 1 623⟩

/-- The mt19937 tempering map. -/
def mtTemper (x : Nat) : Nat :=
  let y1 := x ^^^ (x >>> 11)
  let y2 := y1 ^^^ ((y1 <<< 7) % 2 ^ 32 &&& 0x9D2C5680)
  let y3 := y2 ^^^ ((y2 <<< 15) % 2 ^ 32 &&& 0xEFC60000)
  y3 ^^^ (y3 >>> 18)

/-- One engine call: combine the top bit of `x[i]` with the low bits of
`x[i+1]`, twist with `x[i+397]`, emit the tempered new word, and slide the
window. -/
def mtNext (s : MtState) : Nat × MtState :=
  let y := (s.words.getD 0 0 &&& 0x80000000) ||| (s.words.getD 1 0 &&& 0x7FFFFFFF)
  let x := (s.words.getD 397 0) ^^^ (y >>> 1) ^^^ (if y % 2 = 1 then 0x9908B0DF else 0)
  (mtTemper x, ⟨s.words.tail ++ [x]⟩)

/-- Modelled from the C++ standard library: `uniform_int_distribution(lo, hi)`
applied to one engine draw.  The exact value mapping is
implementation-defined; what matters here is that it is a deterministic
function of the engine state. -/
def drawUniform (lo hi : Nat) (g : MtState) : Nat × MtState :=
  let (x, g2) := mtNext g
  (lo + x % (hi - lo + 1), g2)

/-- `KEYSPACE_SIZE` (`src/client/main.cpp`). -/
def KEYSPACE_SIZE : Nat := 1000000

/-- `LARGE_KEYSPACE_START`. -/
def LARGE_KEYSPACE_START : Nat := KEYSPACE_SIZE + 1

/-- `LARGE_KEYSPACE_END`. -/
def LARGE_KEYSPACE_END : Nat := 1000000000

/-- The four workload strategies. -/
inductive WorkloadKind
  | putAll | getAll | getPopular | mixed
  deriving Repr, DecidableEq

/-- One HTTP request issued by a worker. -/
inductive ClientRequest
  | putReq (path : String) (body : String)
  | getReq (path : String)
  deriving Repr, DecidableEq

/-- The `execute` member of the four `IWorkload` subclasses: one request drawn
from this worker's private generator. -/
def executeWorkload (w : WorkloadKind) (g : MtState) : ClientRequest × MtState :=
  match w with
  | .putAll =>
      let (k, g2) := drawUniform 1 KEYSPACE_SIZE g
      (.putReq ("/key/" ++ toString k) ("value-" ++ toString k), g2)
  | .getAll =>
      let (k, g2) := drawUniform 1 KEYSPACE_SIZE g
      (.getReq ("/key/" ++ toString k), g2)
  | .getPopular =>
      let (k, g2) := drawUniform 1 100 g
      (.getReq ("/key/" ++ toString k), g2)
  | .mixed =>
      let (op, g2) := drawUniform 0 99 g
      if op < 80 then
        let (k, g3) := drawUniform 1 100 g2
        (.getReq ("/key/" ++ toString k), g3)
      else
        let (k, g3) := drawUniform LARGE_KEYSPACE_START LARGE_KEYSPACE_END g2
        (.putReq ("/key/" ++ toString k) ("value-" ++ toString k), g3)

/-- The seed handed to thread `i` in `main`:
`(seed == -1) ? -1 : (seed + i)`. -/
def threadSeed (seed : Int) (i : Nat) : Int :=
  if seed = -1 then -1 else seed + (i : Int)

/-- Conversion of the `int` seed to the engine's 32-bit seed type. -/
def seedToUInt32 (s : Int) : Nat := (s.emod (2 ^ 32)).toNat

/-- The generator a worker builds (`client_worker`): seeded from
`random_device` when the seed is the sentinel `-1`, else from the seed. -/
def workerGen (seed : Int) (entropy : Nat) : MtState :=
  if seed = -1 then mtInit (entropy % 2 ^ 32) else mtInit (seedToUInt32 seed)

/-- The first `n` requests a worker issues from generator state `g`
(the closed loop body, request after request). -/
def runWorkload (w : WorkloadKind) (g : MtState) : Nat → List ClientRequest
  | 0 => []
  | n + 1 =>
      let (r, g2) := executeWorkload w g
      r :: runWorkload w g2 n

/-- The first `n` requests of a worker given its seed and the entropy its
`random_device` would supply. -/
def workerRequests (w : WorkloadKind) (seed : Int) (entropy : Nat) (n : Nat) :
    List ClientRequest :=
  runWorkload w (workerGen seed entropy) n

/-! ## Derived notions used by the claims -/

/-- One runtime cache operation. -/
inductive CacheOp
  | put (k : Int) (v : String)
  | get (k : Int)
  | remove (k : Int)
  deriving Repr, DecidableEq

/-- Run one cache operation (the state part). -/
def applyOp (op : CacheOp) (c : FineLRUCache) : FineLRUCache :=
  match op with
  | .put k v => cachePut k v c
  | .get k => (cacheGet k c).2
  | .remove k => (cacheRemove k c).2

/-- Run a sequence of cache operations. -/
def applyOps : List CacheOp → FineLRUCache → FineLRUCache
  | [], c => c
  | op :: rest, c => applyOps rest (applyOp op c)

/-- Well-formedness of one shard: positive capacity and occupancy within it. -/
def shardWF (s : Shard) : Prop :=
  0 < s.cap ∧ s.entries.length ≤ s.cap

/-- Well-formedness of the sharded cache. -/
def CacheWF (c : FineLRUCache) : Prop :=
  ∀ s ∈ c.shards, shardWF s

/-- The keys of each shard are pairwise distinct — intrinsic to the C++
`unordered_map` representation. -/
def CacheKeysNodup (c : FineLRUCache) : Prop :=
  ∀ s ∈ c.shards, (s.entries.map Prod.fst).Nodup

/-- Sum of the per-shard capacities. -/
def sumCaps (c : FineLRUCache) : Nat :=
  (c.shards.map (fun s => s.cap)).sum

/-- The pool invariant of the spec, over code state plus the ghost count of
held wrappers: in-use plus idle equals total, and total is within capacity. -/
def PoolInv (p : PoolState × Nat) : Prop :=
  p.2 + p.1.idle_connections.length = p.1.total_connections ∧
  p.1.total_connections ≤ p.1.max_size

/-- A one-shard cache holding the single entry `(1, "v")`, used to instantiate
theorems at concrete states. -/
def cacheW : FineLRUCache := ⟨[⟨[(1, "v")], 2⟩]⟩

/-- A concrete system state over `cacheW` with an empty store. -/
def stW : SysState := ⟨cacheW, fun _ => none, 0, 0⟩

/-- A concrete system state whose cache holds a stale value for key 1 while
the store is empty. -/
def stStale : SysState := ⟨⟨[⟨[(1, "old")], 2⟩]⟩, fun _ => none, 0, 0⟩

/-! ## List-level lemmas -/

theorem lookupKey_none_of_not_mem {k : Int} {l : List (Int × String)}
    (h : k ∉ l.map Prod.fst) : lookupKey k l = none := by
  induction l with
  | nil => rfl
  | cons p t ih =>
      simp only [List.map_cons, List.mem_cons] at h
      push_neg at h
      simp only [lookupKey]
      rw [if_neg fun hk => h.1 hk.symm]
      exact ih h.2

theorem not_mem_of_lookupKey_none {k : Int} {l : List (Int × String)}
    (h : lookupKey k l = none) : k ∉ l.map Prod.fst := by
  induction l with
  | nil => simp
  | cons p t ih =>
      simp only [lookupKey] at h
      split at h
      · simp at h
      · next hne =>
          simp only [List.map_cons, List.mem_cons]
          push_neg
          exact ⟨fun hk => hne hk.symm, ih h⟩

theorem eraseKey_sublist (k : Int) (l : List (Int × String)) :
    (eraseKey k l).Sublist l := by
  induction l with
  | nil => simp [eraseKey]
  | cons p t ih =>
      simp only [eraseKey]
      split
      · exact List.sublist_cons_self p t
      · exact ih.cons₂ p

theorem length_eraseKey_le (k : Int) (l : List (Int × String)) :
    (eraseKey k l).length ≤ l.length :=
  (eraseKey_sublist k l).length_le

theorem length_eraseKey_add_one {k : Int} {l : List (Int × String)} {v : String}
    (h : lookupKey k l = some v) : (eraseKey k l).length + 1 = l.length := by
  induction l with
  | nil => simp [lookupKey] at h
  | cons p t ih =>
      simp only [lookupKey] at h
      simp only [eraseKey]
      split
      · simp
      · next hne =>
          rw [if_neg hne] at h
          simp only [List.length_cons]
          rw [← ih h]

theorem not_mem_keys_eraseKey {k : Int} {l : List (Int × String)}
    (hnd : (l.map Prod.fst).Nodup) : k ∉ (eraseKey k l).map Prod.fst := by
  induction l with
  | nil => simp [eraseKey]
  | cons p t ih =>
      simp only [List.map_cons, List.nodup_cons] at hnd
      simp only [eraseKey]
      split
      · next hpk => rw [← hpk]; exact hnd.1
      · next hpk =>
          simp only [List.map_cons, List.mem_cons]
          push_neg
          exact ⟨fun hk => hpk hk.symm, ih hnd.2⟩

theorem set_getD_self : ∀ (l : List α) (i : Nat) (d : α), l.set i (l.getD i d) = l
  | [], _, _ => rfl
  | _ :: _, 0, _ => rfl
  | a :: t, i + 1, d => by
      simp only [List.set_cons_succ, List.cons.injEq, true_and]
      exact set_getD_self t i d

theorem set_of_length_le : ∀ {l : List α} {i : Nat} (y : α), l.length ≤ i → l.set i y = l
  | [], _, _, _ => rfl
  | a :: t, i + 1, y, h => by
      simp only [List.set_cons_succ, List.cons.injEq, true_and]
      exact set_of_length_le y (Nat.le_of_succ_le_succ h)

theorem getD_set_self : ∀ (l : List α) (i : Nat) (d y : α), i < l.length →
    (l.set i y).getD i d = y
  | _ :: _, 0, _, _, _ => rfl
  | a :: t, i + 1, d, y, h => by
      simp only [List.set_cons_succ, List.getD_cons_succ]
      exact getD_set_self t i d y (Nat.lt_of_succ_lt_succ h)

theorem map_set_getD (f : α → β) : ∀ (l : List α) (i : Nat) (d : α) (y : α),
    f y = f (l.getD i d) → (l.set i y).map f = l.map f
  | [], _, _, _, _ => rfl
  | a :: t, 0, d, y, hy => by
      simp only [List.set_cons_zero, List.map_cons, List.getD_cons_zero] at *
      rw [hy]
  | a :: t, i + 1, d, y, hy => by
      simp only [List.set_cons_succ, List.map_cons, List.getD_cons_succ] at *
      rw [map_set_getD f t i d y hy]

theorem filterMap_eq_map_of_some {f : α → Option β} {g : α → β} :
    ∀ {l : List α}, (∀ a ∈ l, f a = some (g a)) → l.filterMap f = l.map g
  | [], _ => rfl
  | a :: t, h => by
      rw [List.filterMap_cons, h a (List.mem_cons_self a t), List.map_cons,
        filterMap_eq_map_of_some fun b hb => h b (List.mem_cons_of_mem a hb)]

theorem sum_map_range_ite (b r n : Nat) :
    ((List.range n).map (fun i => b + if i < r then 1 else 0)).sum
      = n * b + min r n := by
  induction n with
  | zero => simp
  | succ n ih =>
      rw [List.range_succ, List.map_append, List.sum_append, ih]
      by_cases hn : n < r <;> simp [hn, Nat.succ_mul] <;> omega

/-! ## Shard-level lemmas -/

theorem lookupKey_cons_self (k : Int) (v : String) (t : List (Int × String)) :
    lookupKey k ((k, v) :: t) = some v := by
  simp [lookupKey]

theorem shardPut_cap (k : Int) (v : String) (s : Shard) :
    (shardPut k v s).cap = s.cap := by
  unfold shardPut; split <;> rfl

theorem shardGet_cap (k : Int) (s : Shard) : (shardGet k s).2.cap = s.cap := by
  unfold shardGet; split <;> rfl

theorem shardRemove_cap (k : Int) (s : Shard) :
    (shardRemove k s).2.cap = s.cap := by
  unfold shardRemove; split <;> rfl

theorem shardPut_WF {s : Shard} (k : Int) (v : String) (h : shardWF s) :
    shardWF (shardPut k v s) := by
  obtain ⟨hcap, hlen⟩ := h
  unfold shardPut
  cases hl : lookupKey k s.entries with
  | some v0 =>
      refine ⟨hcap, ?_⟩
      have := length_eraseKey_add_one hl
      simp only [List.length_cons]
      omega
  | none =>
      refine ⟨hcap, ?_⟩
      by_cases hfull : s.entries.length ≥ s.cap
      · rw [if_pos hfull]
        simp only [List.length_cons, List.length_dropLast]
        omega
      · rw [if_neg hfull]
        simp only [List.length_cons]
        omega

theorem shardGet_WF {s : Shard} (k : Int) (h : shardWF s) :
    shardWF (shardGet k s).2 := by
  obtain ⟨hcap, hlen⟩ := h
  unfold shardGet
  cases hl : lookupKey k s.entries with
  | some v0 =>
      refine ⟨hcap, ?_⟩
      have := length_eraseKey_add_one hl
      simp only [List.length_cons]
      omega
  | none => exact ⟨hcap, hlen⟩

theorem shardRemove_WF {s : Shard} (k : Int) (h : shardWF s) :
    shardWF (shardRemove k s).2 := by
  obtain ⟨hcap, hlen⟩ := h
  cases hl : lookupKey k s.entries with
  | some v0 =>
      simp only [shardRemove, hl]
      refine ⟨hcap, ?_⟩
      dsimp only
      have := length_eraseKey_le k s.entries
      omega
  | none =>
      simp only [shardRemove, hl]
      exact ⟨hcap, hlen⟩

theorem shardPut_keys_nodup {s : Shard} (k : Int) (v : String)
    (hnd : (s.entries.map Prod.fst).Nodup) :
    ((shardPut k v s).entries.map Prod.fst).Nodup := by
  unfold shardPut
  cases hl : lookupKey k s.entries with
  | some v0 =>
      simp only [List.map_cons, List.nodup_cons]
      exact ⟨not_mem_keys_eraseKey hnd,
        (((eraseKey_sublist k s.entries).map Prod.fst).nodup hnd)⟩
  | none =>
      simp only [List.map_cons, List.nodup_cons]
      have hk := not_mem_of_lookupKey_none hl
      by_cases hfull : s.entries.length ≥ s.cap
      · simp only [hfull, if_pos]
        refine ⟨fun hmem => hk (((s.entries.dropLast_sublist).map Prod.fst).mem hmem), ?_⟩
        exact ((s.entries.dropLast_sublist).map Prod.fst).nodup hnd
      · simp only [hfull, if_neg]
        exact ⟨hk, hnd⟩

theorem shardGet_keys_nodup {s : Shard} (k : Int)
    (hnd : (s.entries.map Prod.fst).Nodup) :
    ((shardGet k s).2.entries.map Prod.fst).Nodup := by
  unfold shardGet
  cases hl : lookupKey k s.entries with
  | some v0 =>
      simp only [List.map_cons, List.nodup_cons]
      exact ⟨not_mem_keys_eraseKey hnd,
        (((eraseKey_sublist k s.entries).map Prod.fst).nodup hnd)⟩
  | none => exact hnd

theorem shardRemove_keys_nodup {s : Shard} (k : Int)
    (hnd : (s.entries.map Prod.fst).Nodup) :
    ((shardRemove k s).2.entries.map Prod.fst).Nodup := by
  unfold shardRemove
  cases hl : lookupKey k s.entries with
  | some v0 => exact (((eraseKey_sublist k s.entries).map Prod.fst).nodup hnd)
  | none => exact hnd

/-! ## Cache-level lemmas -/

theorem cache_forall_set_op {P : Shard → Prop} {c : FineLRUCache}
    (h : ∀ s ∈ c.shards, P s) (F : Shard → Shard)
    (hF : ∀ s, P s → P (F s)) (i : Nat) :
    ∀ s ∈ c.shards.set i (F (c.shards.getD i ⟨[], 0⟩)), P s := by
  intro s hs
  rcases Nat.lt_or_ge i c.shards.length with hi | hi
  · rcases List.mem_or_eq_of_mem_set hs with h1 | rfl
    · exact h s h1
    · rw [List.getD_eq_getElem _ _ hi]
      exact hF _ (h _ (List.getElem_mem hi))
  · rw [set_of_length_le _ hi] at hs
    exact h s hs

theorem shardIndex_lt {c : FineLRUCache} (k : Int) (h : 0 < c.shards.length) :
    shardIndex c k < c.shards.length :=
  Nat.mod_lt _ h

theorem cacheWF_applyOp (op : CacheOp) {c : FineLRUCache} (h : CacheWF c) :
    CacheWF (applyOp op c) := by
  cases op with
  | put k v =>
      exact cache_forall_set_op h (shardPut k v) (fun s hs => shardPut_WF k v hs) _
  | get k =>
      exact cache_forall_set_op h (fun s => (shardGet k s).2)
        (fun s hs => shardGet_WF k hs) _
  | remove k =>
      exact cache_forall_set_op h (fun s => (shardRemove k s).2)
        (fun s hs => shardRemove_WF k hs) _

theorem cacheWF_applyOps (ops : List CacheOp) {c : FineLRUCache} (h : CacheWF c) :
    CacheWF (applyOps ops c) := by
  induction ops generalizing c with
  | nil => exact h
  | cons op rest ih => exact ih (cacheWF_applyOp op h)

theorem cacheKeysNodup_applyOp (op : CacheOp) {c : FineLRUCache}
    (h : CacheKeysNodup c) : CacheKeysNodup (applyOp op c) := by
  cases op with
  | put k v =>
      exact cache_forall_set_op h (shardPut k v)
        (fun s hs => shardPut_keys_nodup k v hs) _
  | get k =>
      exact cache_forall_set_op h (fun s => (shardGet k s).2)
        (fun s hs => shardGet_keys_nodup k hs) _
  | remove k =>
      exact cache_forall_set_op h (fun s => (shardRemove k s).2)
        (fun s hs => shardRemove_keys_nodup k hs) _

theorem cacheKeysNodup_applyOps (ops : List CacheOp) {c : FineLRUCache}
    (h : CacheKeysNodup c) : CacheKeysNodup (applyOps ops c) := by
  induction ops generalizing c with
  | nil => exact h
  | cons op rest ih => exact ih (cacheKeysNodup_applyOp op h)

theorem sumCaps_applyOp (op : CacheOp) (c : FineLRUCache) :
    sumCaps (applyOp op c) = sumCaps c := by
  cases op with
  | put k v =>
      exact congrArg List.sum
        (map_set_getD _ c.shards _ _ _ (shardPut_cap k v _))
  | get k =>
      exact congrArg List.sum
        (map_set_getD _ c.shards _ _ _ (shardGet_cap k _))
  | remove k =>
      exact congrArg List.sum
        (map_set_getD _ c.shards _ _ _ (shardRemove_cap k _))

theorem sumCaps_applyOps (ops : List CacheOp) (c : FineLRUCache) :
    sumCaps (applyOps ops c) = sumCaps c := by
  induction ops generalizing c with
  | nil => rfl
  | cons op rest ih => rw [applyOps, ih, sumCaps_applyOp]

theorem cacheSize_le_sumCaps {c : FineLRUCache} (h : CacheWF c) :
    cacheSize c ≤ sumCaps c :=
  List.sum_le_sum fun s hs => (h s hs).2

theorem shardIndex_set (c : FineLRUCache) (k : Int) (i : Nat) (y : Shard) :
    shardIndex ⟨c.shards.set i y⟩ k = shardIndex c k := by
  simp [shardIndex, List.length_set]

theorem cacheLookup_cacheRemove_self {c : FineLRUCache} (h : CacheKeysNodup c)
    (k : Int) : cacheLookup k (cacheRemove k c).2 = none := by
  rcases Nat.eq_zero_or_pos c.shards.length with hz | hpos
  · rw [List.length_eq_zero] at hz
    simp [cacheLookup, cacheRemove, hz, lookupKey]
  · have hi := shardIndex_lt k hpos
    simp only [cacheLookup, cacheRemove, shardIndex_set]
    rw [getD_set_self _ _ _ _ hi]
    rw [List.getD_eq_getElem _ _ hi]
    have hnd := h _ (List.getElem_mem hi)
    cases hl : lookupKey k (c.shards[shardIndex c k].entries) with
    | none => simp only [shardRemove, hl]
    | some v0 =>
        simp only [shardRemove, hl]
        exact lookupKey_none_of_not_mem (not_mem_keys_eraseKey hnd)

theorem cacheLookup_cachePut_self {c : FineLRUCache} (k : Int) (v : String)
    (hpos : 0 < c.shards.length) : cacheLookup k (cachePut k v c) = some v := by
  have hi := shardIndex_lt k hpos
  simp only [cacheLookup, cachePut, shardIndex_set]
  rw [getD_set_self _ _ _ _ hi]
  cases hl : lookupKey k ((c.shards.getD (shardIndex c k) ⟨[], 0⟩).entries) with
  | none => simp only [shardPut, hl]; exact lookupKey_cons_self k v _
  | some v0 => simp only [shardPut, hl]; exact lookupKey_cons_self k v _

theorem shardGet_fst_none {s : Shard} {k : Int} (h : (shardGet k s).1 = none) :
    lookupKey k s.entries = none := by
  cases hl : lookupKey k s.entries with
  | none => rfl
  | some v0 => simp [shardGet, hl] at h

theorem shardGet_miss {s : Shard} {k : Int} (h : (shardGet k s).1 = none) :
    (shardGet k s).2 = s := by
  have hl := shardGet_fst_none h
  simp [shardGet, hl]

theorem cacheGet_miss {c : FineLRUCache} {k : Int}
    (h : (cacheGet k c).1 = none) : (cacheGet k c).2 = c := by
  have h2 : (shardGet k (c.shards.getD (shardIndex c k) ⟨[], 0⟩)).1 = none := h
  obtain ⟨shards⟩ := c
  simp only [cacheGet]
  rw [shardGet_miss h2, set_getD_self]

/-! ## Constructor lemmas -/

theorem shardEntry_pos {s1 x : Nat}
    (hi : (if s1 > 0 then some s1 else none) = some x) : 0 < x := by
  split at hi
  · next h => injection hi with hx; omega
  · exact absurd hi (by simp)

theorem shardSizes_pos {C S x : Nat} (h : x ∈ shardSizes C S) : 0 < x := by
  simp only [shardSizes, List.mem_filterMap] at h
  obtain ⟨i, _, hi⟩ := h
  exact shardEntry_pos hi

theorem shardEntry_eq_bump {C : Nat} (hC : 0 < C) (s0 : Nat) :
    (if (if s0 = 0 ∧ C > 0 then 1 else s0) > 0
      then some (if s0 = 0 ∧ C > 0 then 1 else s0) else none)
      = some (if s0 = 0 then 1 else s0) := by
  by_cases h0 : s0 = 0
  · rw [if_pos (show s0 = 0 ∧ C > 0 from ⟨h0, hC⟩),
      if_pos (show (1 : Nat) > 0 by omega), if_pos h0]
  · rw [if_neg (show ¬(s0 = 0 ∧ C > 0) from fun hc => h0 hc.1),
      if_pos (show s0 > 0 by omega), if_neg h0]

theorem shardEntry_eq_keep {C : Nat} (s0 : Nat) (h0 : s0 ≠ 0) :
    (if (if s0 = 0 ∧ C > 0 then 1 else s0) > 0
      then some (if s0 = 0 ∧ C > 0 then 1 else s0) else none) = some s0 := by
  rw [if_neg (show ¬(s0 = 0 ∧ C > 0) from fun hc => h0 hc.1),
    if_pos (show s0 > 0 by omega)]

theorem shardSizes_length {C S : Nat} (hC : 0 < C) :
    (shardSizes C S).length = S := by
  rw [shardSizes,
    filterMap_eq_map_of_some (g := fun i =>
      if C / S + (if i < C % S then 1 else 0) = 0 then 1
      else C / S + (if i < C % S then 1 else 0))]
  · simp
  · intro a _
    exact shardEntry_eq_bump hC _

theorem shardSizes_sum_of_le {C S : Nat} (hS : 0 < S) (h : S ≤ C) :
    (shardSizes C S).sum = C := by
  have hbase : 1 ≤ C / S := (Nat.one_le_div_iff hS).mpr h
  rw [shardSizes,
    filterMap_eq_map_of_some (g := fun i => C / S + (if i < C % S then 1 else 0))]
  · rw [sum_map_range_ite]
    have hmod : C % S < S := Nat.mod_lt _ hS
    rw [min_eq_left (Nat.le_of_lt hmod)]
    exact Nat.div_add_mod C S
  · intro a _
    exact shardEntry_eq_keep _ (by omega)

theorem shardSizes_sum_of_lt {C S : Nat} (hC : 0 < C) (h : C < S) :
    (shardSizes C S).sum = S := by
  have hdiv : C / S = 0 := Nat.div_eq_of_lt h
  have hmod : C % S = C := Nat.mod_eq_of_lt h
  rw [shardSizes, filterMap_eq_map_of_some (g := fun _ => 1)]
  · rw [List.map_const', List.sum_replicate, List.length_range, smul_eq_mul,
      Nat.mul_one]
  · intro a _
    by_cases ha : a < C % S
    · have h1 : C / S + (if a < C % S then 1 else 0) = 1 := by rw [if_pos ha]; omega
      simp only [h1]
      exact shardEntry_eq_keep _ (by omega)
    · have h1 : C / S + (if a < C % S then 1 else 0) = 0 := by rw [if_neg ha]; omega
      simp only [h1]
      rw [if_pos (show True ∧ C > 0 from ⟨trivial, hC⟩),
        if_pos (show (1 : Nat) > 0 by omega)]

theorem mkFineLRUCache_ok_shards {C S : Nat} {c0 : FineLRUCache} (hC : C ≠ 0)
    (hS : S ≠ 0) (h : mkFineLRUCache C S = .ok c0) :
    c0.shards = (shardSizes C S).map (fun sz => ⟨[], sz⟩) := by
  unfold mkFineLRUCache at h
  rw [if_neg hC, if_neg hS] at h
  by_cases hz : (shardSizes C S).length = 0
  · rw [if_pos hz] at h; cases h
  · rw [if_neg hz] at h
    injection h with h2
    rw [← h2]

theorem sumCaps_mk {C S : Nat} {c0 : FineLRUCache} (hC : C ≠ 0) (hS : S ≠ 0)
    (h : mkFineLRUCache C S = .ok c0) : sumCaps c0 = (shardSizes C S).sum := by
  rw [sumCaps, mkFineLRUCache_ok_shards hC hS h, List.map_map]
  have hid : ((fun s : Shard => s.cap) ∘ fun sz => (⟨[], sz⟩ : Shard)) = id := by
    funext sz; rfl
  rw [hid, List.map_id]

theorem cacheWF_mk {C S : Nat} {c0 : FineLRUCache} (hC : C ≠ 0) (hS : S ≠ 0)
    (h : mkFineLRUCache C S = .ok c0) : CacheWF c0 := by
  rw [CacheWF, mkFineLRUCache_ok_shards hC hS h]
  intro s hs
  simp only [List.mem_map] at hs
  obtain ⟨sz, hsz, rfl⟩ := hs
  exact ⟨shardSizes_pos hsz, by simp⟩

/-! ## Pool lemmas -/

theorem poolAcquire_conn_cases {s : PoolState} {o : FactoryOutcome}
    {h : PooledConnection} {s2 : PoolState}
    (hacq : poolAcquire s o = some (.conn h, s2)) :
    (∃ c rest, s.idle_connections = c :: rest ∧
      s2 = { s with idle_connections := rest }) ∨
    (s.idle_connections = [] ∧ s.total_connections < s.max_size ∧
      s2 = { s with total_connections := s.total_connections + 1 }) := by
  unfold poolAcquire at hacq
  cases hidle : s.idle_connections with
  | cons c rest =>
      rw [hidle] at hacq
      injection hacq with hacq2
      injection hacq2 with _ hs2
      exact Or.inl ⟨c, rest, rfl, hs2.symm⟩
  | nil =>
      rw [hidle] at hacq
      by_cases hlt : s.total_connections < s.max_size
      · rw [if_pos hlt] at hacq
        cases o with
        | ok c =>
            injection hacq with hacq2
            injection hacq2 with _ hs2
            exact Or.inr ⟨rfl, hlt, hs2.symm⟩
        | throws msg =>
            injection hacq with hacq2
            injection hacq2 with hr
            cases hr
      · rw [if_neg hlt] at hacq
        cases hacq

theorem poolAcquire_raised_state {s : PoolState} {o : FactoryOutcome}
    {msg : String} {b : Bool} {s2 : PoolState}
    (hacq : poolAcquire s o = some (.raised msg b, s2)) : s2 = s := by
  obtain ⟨mx, tc, ic⟩ := s
  unfold poolAcquire at hacq
  dsimp only at hacq
  cases ic with
  | cons c rest =>
      injection hacq with hacq2
      injection hacq2 with hr
      cases hr
  | nil =>
      by_cases hlt : tc < mx
      · rw [if_pos hlt] at hacq
        cases o with
        | ok c =>
            injection hacq with hacq2
            injection hacq2 with hr
            cases hr
        | throws m =>
            injection hacq with hacq2
            injection hacq2 with _ hs2
            rw [← hs2]
            simp
      · rw [if_neg hlt] at hacq
        cases hacq

theorem poolStep_inv {p q : PoolState × Nat} (hstep : PoolStep p q)
    (hinv : PoolInv p) : PoolInv q := by
  cases hstep with
  | acquireConn s u o h s2 hacq hvalid =>
      unfold PoolInv at hinv ⊢
      dsimp only at hinv ⊢
      obtain ⟨h1, h2⟩ := hinv
      rcases poolAcquire_conn_cases hacq with ⟨c, rest, hidle, rfl⟩ | ⟨hidle, hlt, rfl⟩
      · dsimp only
        rw [hidle] at h1
        simp only [List.length_cons] at h1
        exact ⟨by omega, h2⟩
      · dsimp only
        rw [hidle] at h1 ⊢
        simp only [List.length_nil] at h1 ⊢
        exact ⟨by omega, by omega⟩
  | acquireRaised s u o msg b s2 hacq =>
      rw [poolAcquire_raised_state hacq]
      exact hinv
  | releaseConn s u c hu =>
      unfold PoolInv at hinv ⊢
      dsimp only at hinv ⊢
      obtain ⟨h1, h2⟩ := hinv
      simp only [poolRelease, List.length_append, List.length_cons, List.length_nil]
      exact ⟨by omega, h2⟩

/-! ## Claims -/

/-- Claim C1, counterexample: the httplib handler `KvServer::PutKv` (and
`KvServer::DeleteKv`) performs no cache invalidation, so with the cache
holding a stale value for key 1 the 200 response is produced while the
pre-write value is still in the cache. -/
theorem claim1_counterexample :
    cacheLookup 1 ((kvServerPutKv 1 "new" stStale).2.cache) = some "old" ∧
    (kvServerPutKv 1 "new" stStale).1.status = 200 ∧
    cacheLookup 1 ((kvServerDeleteKv 1 stStale).2.cache) = some "old" ∧
    (kvServerDeleteKv 1 stStale).1.status = 200 := by
  refine ⟨by decide, rfl, by decide, rfl⟩

/-- Claim C1, amended: only the CivetWeb handlers invalidate.  For every key
and value, `KvServerCw::PutKv` upserts the store and removes the key from the
cache before the 200 response, so at response time the cache holds no entry
for the key; likewise `KvServerCw::DeleteKv` after the store delete.  The
httplib `KvServer` write handlers perform no cache invalidation at all. -/
theorem claim1_amended_cw_write_invalidate (k : Int) (v : String)
    (st : SysState) (hnd : CacheKeysNodup st.cache) :
    cacheLookup k ((kvServerCwPutKv k v st).2.cache) = none ∧
    (kvServerCwPutKv k v st).2.store k = some v ∧
    (kvServerCwPutKv k v st).1 = ⟨200, "Updated"⟩ ∧
    cacheLookup k ((kvServerCwDeleteKv k st).2.cache) = none ∧
    (kvServerCwDeleteKv k st).2.store k = none ∧
    (kvServerCwDeleteKv k st).1 = ⟨200, "Deleted"⟩ := by
  refine ⟨?_, ?_, rfl, ?_, ?_, rfl⟩
  · exact cacheLookup_cacheRemove_self hnd k
  · simp [kvServerCwPutKv, storeUpsert]
  · exact cacheLookup_cacheRemove_self hnd k
  · simp [kvServerCwDeleteKv, storeDelete]

/-- Claim C1, witness at key 1 on a concrete state. -/
theorem claim1_witness :
    CacheKeysNodup stW.cache ∧
    cacheLookup 1 ((kvServerCwPutKv 1 "new" stW).2.cache) = none := by
  have hnd : CacheKeysNodup stW.cache := by
    unfold CacheKeysNodup stW cacheW; decide
  exact ⟨hnd, (claim1_amended_cw_write_invalidate 1 "new" stW hnd).1⟩

/-- Claim C2, counterexample: with capacity 1 and 2 shards every shard is
bumped to one slot, so the per-shard capacities sum to 2 (not 1), and the
operation sequence Put 0, Put 1 leaves 2 entries in the cache, exceeding the
configured capacity 1. -/
theorem claim2_counterexample :
    (mkFineLRUCache 1 2).toOption.map sumCaps = some 2 ∧
    (mkFineLRUCache 1 2).toOption.map
      (fun c0 => cacheSize (applyOps [.put 0 "a", .put 1 "b"] c0)) = some 2 := by
  constructor <;> decide

/-- Claim C2, amended: the per-shard capacities of a cache built with
capacity C > 0 and shard count S > 0 sum to `max C S` (exactly C only when
S ≤ C, since a shard whose allotment is zero is bumped to one slot), and
after every sequence of Put, Get and Remove the total entry count never
exceeds `max C S`; the claimed bound C holds whenever S ≤ C. -/
theorem claim2_amended_capacity (C S : Nat) (hC : 0 < C) (hS : 0 < S)
    (c0 : FineLRUCache) (hmk : mkFineLRUCache C S = .ok c0)
    (ops : List CacheOp) :
    sumCaps c0 = max C S ∧
    cacheSize (applyOps ops c0) ≤ max C S ∧
    (S ≤ C → cacheSize (applyOps ops c0) ≤ C) := by
  have hCne : C ≠ 0 := Nat.pos_iff_ne_zero.mp hC
  have hSne : S ≠ 0 := Nat.pos_iff_ne_zero.mp hS
  have hsum : sumCaps c0 = max C S := by
    rw [sumCaps_mk hCne hSne hmk]
    rcases le_or_lt S C with h | h
    · rw [shardSizes_sum_of_le hS h, Nat.max_eq_left h]
    · rw [shardSizes_sum_of_lt hC h, Nat.max_eq_right (Nat.le_of_lt h)]
  have hwf := cacheWF_applyOps ops (cacheWF_mk hCne hSne hmk)
  have hle := cacheSize_le_sumCaps hwf
  rw [sumCaps_applyOps, hsum] at hle
  refine ⟨hsum, hle, fun hSC => ?_⟩
  rw [← Nat.max_eq_left hSC]
  exact hle

/-- Claim C2, witness: capacity 4 over 2 shards, one Put. -/
theorem claim2_witness :
    mkFineLRUCache 4 2 = .ok ⟨[⟨[], 2⟩, ⟨[], 2⟩]⟩ ∧
    sumCaps ⟨[⟨[], 2⟩, ⟨[], 2⟩]⟩ = max 4 2 ∧
    cacheSize (applyOps [.put 5 "x"] ⟨[⟨[], 2⟩, ⟨[], 2⟩]⟩) ≤ max 4 2 := by
  have hmk : mkFineLRUCache 4 2 = .ok ⟨[⟨[], 2⟩, ⟨[], 2⟩]⟩ := rfl
  have h := claim2_amended_capacity 4 2 (by decide) (by decide) _ hmk [.put 5 "x"]
  exact ⟨hmk, h.1, h.2.1⟩

/-- Claim C3, counterexample: with capacity 1 and 2 shards, the second shard
is allotted zero slots by the distribution rule, yet it is not dropped — it
is created with one slot — so the shard count stays 2 and construction does
not fail. -/
theorem claim3_counterexample :
    shardSizes 1 2 = [1, 1] ∧
    (shardSizes 1 2).length = 2 ∧
    (1 : Nat) / 2 + (if (1 : Nat) < 1 % 2 then 1 else 0) = 0 := by
  refine ⟨by decide, by decide, by decide⟩

/-- Claim C3, amended: no shard is ever dropped.  A shard whose allotment
would be zero is given one slot instead; for every capacity C > 0 and shard
count S > 0 the derived shard count equals S and construction succeeds (the
Internal failure path is unreachable). -/
theorem claim3_amended_no_drop (C S : Nat) (hC : 0 < C) (hS : 0 < S) :
    (shardSizes C S).length = S ∧
    ∃ c0, mkFineLRUCache C S = .ok c0 ∧ c0.shards.length = S := by
  have hlen := shardSizes_length (C := C) (S := S) hC
  refine ⟨hlen, ⟨⟨(shardSizes C S).map (fun sz => ⟨[], sz⟩)⟩, ?_,
    by rw [List.length_map]; exact hlen⟩⟩
  unfold mkFineLRUCache
  rw [if_neg (Nat.pos_iff_ne_zero.mp hC), if_neg (Nat.pos_iff_ne_zero.mp hS),
    if_neg (show ¬(shardSizes C S).length = 0 by rw [hlen]; omega)]

/-- Claim C3, witness at capacity 1, shard count 2. -/
theorem claim3_witness :
    (shardSizes 1 2).length = 2 ∧
    ∃ c0, mkFineLRUCache 1 2 = .ok c0 ∧ c0.shards.length = 2 :=
  claim3_amended_no_drop 1 2 (by decide) (by decide)

/-- Claim C4, counterexample: `KvDatabase::getValueForKey` swallows a select
error and returns `std::nullopt`, the same result as for an absent key — the
failure is not surfaced to the caller. -/
theorem claim4_counterexample :
    getValueForKey (.raised "connection refused") = none ∧
    getValueForKey (.raised "connection refused") = getValueForKey (.rows none) :=
  ⟨rfl, rfl⟩

/-- Claim C4, amended: `Get(k)` returns the row when the select yields one,
and returns empty both when the key is absent and when the select raises
(the error is only logged); store errors are conflated with absence, never
surfaced as a failure. -/
theorem claim4_amended_error_conflated (msg : String) (row : Option String) :
    getValueForKey (.raised msg) = none ∧ getValueForKey (.rows row) = row := by
  refine ⟨rfl, ?_⟩
  cases row <;> rfl

/-- Claim C5, counterexample: `GET /abc` falls through the routing regex and
is answered 404, not 400. -/
theorem claim5_counterexample :
    (dispatchHandler .GET "/abc" "" stW).1.status = 404 ∧
    (dispatchHandler .GET "/abc" "" stW).1.status ≠ 400 := by
  constructor <;> decide

/-- Claim C5, amended: every request whose key path segment is not an
integer (and which is not `GET /`) matches no route and is answered
`404 Not Found` with the state unchanged; the handlers' 400 branch is not
reached through routing. -/
theorem claim5_amended_notfound (method : Method) (uri : String) (body : String)
    (st : SysState) (hroot : ¬(uri = "/" ∧ method = Method.GET))
    (hkey : keyPathSegment uri = none) :
    (dispatchHandler method uri body st).1 = ⟨404, "Not Found"⟩ ∧
    (dispatchHandler method uri body st).2 = st := by
  unfold dispatchHandler
  rw [if_neg hroot, hkey]
  exact ⟨rfl, rfl⟩

/-- Claim C5, witness at `GET /abc`. -/
theorem claim5_witness :
    ¬(("/abc" : String) = "/" ∧ Method.GET = Method.GET) ∧
    keyPathSegment "/abc" = none ∧
    (dispatchHandler .GET "/abc" "" stW).1 = ⟨404, "Not Found"⟩ := by
  have h1 : ¬(("/abc" : String) = "/" ∧ Method.GET = Method.GET) := by decide
  have h2 : keyPathSegment "/abc" = none := by decide
  exact ⟨h1, h2, (claim5_amended_notfound .GET "/abc" "" stW h1 h2).1⟩

/-- Claim C6: for every GET of a well-formed integer key, `totalGets` is
incremented before the cache probe; a cache hit increments `cacheHits` and
answers 200 with the cached value; on a miss the store is consulted — a
present value is answered 200 and inserted into the cache, an absent one is
answered 404 with the cache left unchanged. -/
theorem claim6_get_handler (k : Int) (st : SysState) :
    (handlerGetKv k st).2.totalGets = st.totalGets + 1 ∧
    (∀ v c2, cacheGet k st.cache = (some v, c2) →
      (handlerGetKv k st).1 = ⟨200, v⟩ ∧
      (handlerGetKv k st).2.cacheHits = st.cacheHits + 1 ∧
      (handlerGetKv k st).2.cache = c2) ∧
    (∀ v, (cacheGet k st.cache).1 = none → st.store k = some v →
      (handlerGetKv k st).1 = ⟨200, v⟩ ∧
      (handlerGetKv k st).2.cache = cachePut k v st.cache ∧
      (0 < st.cache.shards.length →
        cacheLookup k ((handlerGetKv k st).2.cache) = some v) ∧
      (handlerGetKv k st).2.cacheHits = st.cacheHits) ∧
    ((cacheGet k st.cache).1 = none → st.store k = none →
      (handlerGetKv k st).1 = ⟨404, "Key not found"⟩ ∧
      (handlerGetKv k st).2.cache = st.cache ∧
      (handlerGetKv k st).2.cacheHits = st.cacheHits) := by
  unfold handlerGetKv
  dsimp only
  rcases hcg : cacheGet k st.cache with ⟨o, c2⟩
  cases o with
  | some v0 =>
      refine ⟨rfl, ?_, ?_, ?_⟩
      · intro v c2x heq
        injection heq with ho hc
        injection ho with hv
        subst hv
        subst hc
        exact ⟨rfl, rfl, rfl⟩
      · intro v hnone _
        simp at hnone
      · intro hnone _
        simp at hnone
  | none =>
      have hmiss : (cacheGet k st.cache).2 = st.cache :=
        cacheGet_miss (by rw [hcg])
      rw [hcg] at hmiss
      dsimp only at hmiss
      subst hmiss
      refine ⟨?_, ?_, ?_, ?_⟩
      · cases hstore : st.store k <;> rfl
      · intro v c2x heq
        injection heq with ho _
        cases ho
      · intro v _ hsv
        rw [hsv]
        exact ⟨rfl, rfl, fun hpos => cacheLookup_cachePut_self k v hpos, rfl⟩
      · intro _ hsn
        rw [hsn]
        exact ⟨rfl, rfl, rfl⟩

/-- Claim C6, witness: a cache hit on a concrete one-shard state. -/
theorem claim6_witness :
    cacheGet 1 stW.cache = (some "v", cacheW) ∧
    (handlerGetKv 1 stW).1 = ⟨200, "v"⟩ ∧
    (handlerGetKv 1 stW).2.cacheHits = stW.cacheHits + 1 := by
  have heq : cacheGet 1 stW.cache = (some "v", cacheW) := by decide
  have h := (claim6_get_handler 1 stW).2.1 "v" cacheW heq
  exact ⟨heq, h.1, h.2.1⟩

/-- Claim C7: in every state of the connection pool reachable by Acquire and
Release steps from a fresh pool, the ghost count of held connections plus the
idle-queue length equals `total_connections_`, which never exceeds
`max_size_`. -/
theorem claim7_pool_invariant (max_size : Nat) (p : PoolState × Nat)
    (hreach : Relation.ReflTransGen PoolStep (mkPool max_size, 0) p) :
    p.2 + p.1.idle_connections.length = p.1.total_connections ∧
    p.1.total_connections ≤ p.1.max_size := by
  have hinv : PoolInv p := by
    induction hreach with
    | refl => exact ⟨rfl, Nat.zero_le _⟩
    | tail hsteps hstep ih => exact poolStep_inv hstep ih
  exact hinv

/-- Claim C7, witness: a two-step run (create, then release) on a pool of
capacity 2. -/
theorem claim7_witness :
    Relation.ReflTransGen PoolStep (mkPool 2, 0)
      (poolRelease (some ()) ⟨2, 1, []⟩, 0) ∧
    0 + (poolRelease (some ()) ⟨2, 1, []⟩).idle_connections.length
      = (poolRelease (some ()) ⟨2, 1, []⟩).total_connections := by
  have step1 : PoolStep (mkPool 2, 0) (⟨2, 1, []⟩, 1) :=
    PoolStep.acquireConn (mkPool 2) 0 (.ok (some ())) ⟨some (), true⟩
      ⟨2, 1, []⟩ rfl rfl
  have step2 : PoolStep (⟨2, 1, []⟩, 1) (poolRelease (some ()) ⟨2, 1, []⟩, 0) :=
    PoolStep.releaseConn ⟨2, 1, []⟩ 1 (some ()) (by omega)
  have hreach := Relation.ReflTransGen.head step1
    (Relation.ReflTransGen.single step2)
  exact ⟨hreach, (claim7_pool_invariant 2 _ hreach).1⟩

/-- Claim C8: if the factory throws during Acquire (idle queue empty, total
below capacity), Acquire rolls `total_connections_` back to its pre-call
value, runs `notify_all`, and propagates the exception, leaving the pool
state exactly as it was before the call. -/
theorem claim8_factory_throw_rollback (s : PoolState) (msg : String)
    (hidle : s.idle_connections = []) (hlt : s.total_connections < s.max_size) :
    poolAcquire s (.throws msg) = some (.raised msg true, s) := by
  obtain ⟨mx, tc, ic⟩ := s
  dsimp only at hidle hlt
  subst hidle
  unfold poolAcquire
  dsimp only
  rw [if_pos hlt]
  simp

/-- Claim C8, witness on a fresh pool of capacity 3. -/
theorem claim8_witness :
    (mkPool 3).idle_connections = [] ∧
    (mkPool 3).total_connections < (mkPool 3).max_size ∧
    poolAcquire (mkPool 3) (.throws "boom") = some (.raised "boom" true, mkPool 3) :=
  ⟨rfl, by decide, claim8_factory_throw_rollback (mkPool 3) "boom" rfl (by decide)⟩

/-- Claim C10: when the factory returns a null pointer instead of throwing
(as the server factory does on a failed database connection), Acquire does no
rollback — it returns a wrapper whose `is_valid()` is false while
`total_connections_` keeps counting the null resource, and destroying that
wrapper releases nothing, so the count is never given back. -/
theorem claim10_null_factory (s : PoolState)
    (hidle : s.idle_connections = []) (hlt : s.total_connections < s.max_size) :
    poolAcquire s (.ok none) = some (.conn ⟨none, true⟩,
      { s with total_connections := s.total_connections + 1 }) ∧
    PooledConnection.isValidConn ⟨none, true⟩ = false ∧
    destroyHandle ⟨none, true⟩ { s with total_connections := s.total_connections + 1 }
      = { s with total_connections := s.total_connections + 1 } := by
  refine ⟨?_, rfl, ?_⟩
  · unfold poolAcquire
    rw [hidle, if_pos hlt]
  · unfold destroyHandle
    rw [if_neg (by simp)]

/-- Claim C10, witness on a fresh pool of capacity 1. -/
theorem claim10_witness :
    poolAcquire (mkPool 1) (.ok none) = some (.conn ⟨none, true⟩, ⟨1, 1, []⟩) ∧
    PooledConnection.isValidConn ⟨none, true⟩ = false ∧
    destroyHandle ⟨none, true⟩ ⟨1, 1, []⟩ = ⟨1, 1, []⟩ := by
  have h := claim10_null_factory (mkPool 1) rfl (by decide)
  exact ⟨h.1, h.2.1, h.2.2⟩

set_option maxRecDepth 1000000 in
/-- Claim C9, counterexample: the sentinel seed −1 defeats per-thread
seeding.  With supplied base seed −1 and thread index 1 the thread seed is
−1 (not −1 + 1), the worker seeds from `random_device`, and two runs with
different entropy produce different request sequences. -/
theorem claim9_counterexample :
    threadSeed (-1) 1 = -1 ∧
    workerRequests .getPopular (threadSeed (-1) 1) 0 1
      ≠ workerRequests .getPopular (threadSeed (-1) 1) 5 1 := by
  constructor
  · decide
  · decide

/-- Claim C9, amended: when the supplied base seed S is not the sentinel −1
and the derived seed S+i is not −1 either, worker thread i is seeded with
S+i and owns its own workload clone and generator, so the sequence of
requests it issues is independent of the entropy source — two runs with the
same S, thread count and workload type produce identical per-thread request
sequences. -/
theorem claim9_amended_determinism (w : WorkloadKind) (S : Int) (i : Nat)
    (h1 : S ≠ -1) (h2 : S + (i : Int) ≠ -1) :
    threadSeed S i = S + (i : Int) ∧
    ∀ e1 e2 n, workerRequests w (threadSeed S i) e1 n
      = workerRequests w (threadSeed S i) e2 n := by
  have hts : threadSeed S i = S + (i : Int) := if_neg h1
  refine ⟨hts, fun e1 e2 n => ?_⟩
  rw [hts]
  unfold workerRequests workerGen
  rw [if_neg h2, if_neg h2]

/-- Claim C9, witness: seed 7, thread 2, three requests of `get_popular`
under two different entropy values. -/
theorem claim9_witness :
    threadSeed 7 2 = 7 + (2 : Int) ∧
    workerRequests .getPopular (threadSeed 7 2) 0 3
      = workerRequests .getPopular (threadSeed 7 2) 99 3 := by
  have h := claim9_amended_determinism .getPopular 7 2 (by decide) (by decide)
  exact ⟨h.1, h.2 0 99 3⟩

end KvLoadTest
